import Mathlib

/-!
Verification of the core pipeline of `src/homework_01/log_analyzer.py`
(nginx log analyzer): line-grammar matching (`parse_line` with the
`RE_NGINX_LOG_FORMAT` pattern), single-pass aggregation (`parse_logfile`),
statistical summarization and destructive top-N selection
(`calculate_stats`).

Modelling conventions:
* Python floats are modelled as rationals; `round(x, 3)` is modelled as
  exact banker's rounding (round half to even) at three decimal digits,
  `round(x)` as banker's rounding to an integer.
* Python exceptions are modelled with `Except String`; the message names
  the Python exception raised at the corresponding source line.
* A Python dict is an insertion-ordered association list with unique keys;
  assignment updates in place or appends, deletion removes the key.
* The regular-expression match of `re.match` is modelled by a
  backtracking matcher with Python's disambiguation order (greedy
  quantifiers try longest first, lazy quantifiers shortest first,
  alternation left to right).
-/

namespace LogAnalyzer

/-! ## Rounding: Python `round` (banker's rounding, half to even) -/

/-- Round half to even, as Python's builtin `round` on an exact value. -/
def roundHalfEven (q : ℚ) : ℤ :=
  if q - (⌊q⌋ : ℚ) < 1/2 then ⌊q⌋
  else if 1/2 < q - (⌊q⌋ : ℚ) then ⌊q⌋ + 1
  else if ⌊q⌋ % 2 = 0 then ⌊q⌋ else ⌊q⌋ + 1

/-- Python `round(x)` (one-argument form, returns an int). -/
def pyRound (q : ℚ) : ℤ := roundHalfEven q

/-- Python `round(x, 3)`: round to three decimal digits, half to even. -/
def round3 (q : ℚ) : ℚ := (roundHalfEven (q * 1000) : ℚ) / 1000

/-! ## Python `float(str)`

Model of the conversions the analyzer performs on captured
request-time strings.  Covers the decimal literal forms
`[+-]digits[.digits][(e|E)[+-]digits]` (also `.digits`); the forms not
reachable from the analyzer's inputs (inf/nan, underscores, surrounding
whitespace) are omitted and map to `none`. -/

/-- Numeric value of a digit list read most-significant first. -/
def digitsVal (l : List Char) : ℕ :=
  l.foldl (fun a c => a * 10 + (c.toNat - 48)) 0

/-- Parse the exponent suffix of a float literal: optional sign then a
nonempty digit run consuming the entire rest. -/
def parseExp (l : List Char) : Option ℤ :=
  match l with
  | [] => none
  | c :: rest =>
    let (sgn, ds) : ℤ × List Char :=
      if c = '-' then (-1, rest) else if c = '+' then (1, rest) else (1, l)
    if ds ≠ [] ∧ ds.all Char.isDigit then some (sgn * digitsVal ds) else none

/-- Parse the unsigned mantissa with optional exponent. -/
def parseMantissa (l : List Char) : Option ℚ :=
  let intPart := l.takeWhile Char.isDigit
  let rest1 := l.drop intPart.length
  let (fracPart, rest2) : List Char × List Char :=
    match rest1 with
    | '.' :: r => (r.takeWhile Char.isDigit, r.drop (r.takeWhile Char.isDigit).length)
    | _ => ([], rest1)
  let hadDot : Bool := decide (rest1 ≠ rest2 ∨ rest1.headD ' ' = '.')
  if intPart = [] ∧ fracPart = [] then none
  else
    let base : ℚ := (digitsVal intPart : ℚ) + (digitsVal fracPart : ℚ) / (10 ^ fracPart.length : ℕ)
    match rest2, hadDot with
    | [], _ => some base
    | 'e' :: e, _ => (parseExp e).map (fun x => base * (10 : ℚ) ^ x)
    | 'E' :: e, _ => (parseExp e).map (fun x => base * (10 : ℚ) ^ x)
    | _, _ => none

/-- Model of Python `float(s)` on the literal forms used here. -/
def pyFloat (s : String) : Option ℚ :=
  match s.data with
  | [] => none
  | '-' :: rest => (parseMantissa rest).map (fun q => -q)
  | '+' :: rest => parseMantissa rest
  | l => parseMantissa l

/-! ## Python `max`, `statistics.mean`, `statistics.median` -/

/-- Python `max(list)` over floats: error on the empty list. -/
def pyMax (l : List ℚ) : Except String ℚ :=
  match l with
  | [] => .error "ValueError: max() arg is an empty sequence"
  | x :: xs => .ok (xs.foldl max x)

/-- Python `sorted(list)` of floats: the ascending sorted permutation. -/
def pySorted (l : List ℚ) : List ℚ := l.insertionSort (· ≤ ·)

/-- `statistics.median`: sorts, then takes the middle element (odd
length) or the mean of the two middle elements (even length). -/
def pyMedian (l : List ℚ) : ℚ :=
  if (pySorted l).length % 2 = 1 then (pySorted l).getD ((pySorted l).length / 2) 0
  else
    ((pySorted l).getD ((pySorted l).length / 2 - 1) 0
      + (pySorted l).getD ((pySorted l).length / 2) 0) / 2

/-- The spec's median: average of the two middle values of the
ascending-sorted samples for even length, the single middle value for
odd length. -/
def medianSpec (l : List ℚ) : ℚ :=
  if l.length % 2 = 1 then (l.insertionSort (· ≤ ·)).getD (l.length / 2) 0
  else
    ((l.insertionSort (· ≤ ·)).getD (l.length / 2 - 1) 0
      + (l.insertionSort (· ≤ ·)).getD (l.length / 2) 0) / 2

/-! ## The line grammar: `config["RE_NGINX_LOG_FORMAT"]` and `parse_line`

The pattern (log_analyzer.py lines 27-28) is

  ^(d13.d13.d13.d13) (-|\w*)  (-|d13.d13.d13.d13) \[(.*)\] ".* (.*) .*"
   (\d*) (\d*) "(.*?)" "(.*?)" "(.*?)" "(.*?)" "(.*?)" (\d*.\d*)$

writing d13 for a 1-to-3 digit run.  Note that the dot in the final
group `(\d*.\d*)` is an unescaped wildcard.  The matcher below
implements Python's anchored `re.match` semantics for exactly the
constructs this pattern uses: literal characters, the classes `\d`,
`\w`, `.` (any character except newline), greedy `*` (longest
alternative first), lazy `*?` (shortest first), greedy counted
repetition, two-way alternation (left first), flat numbered capturing
groups, and the `$` anchor (end of string or just before a trailing
newline). -/

/-- Character classes occurring in the pattern. -/
inductive CCls where
  | digit
  | wordc
  | dot
deriving DecidableEq

/-- Class membership, following `re` ASCII semantics for this input. -/
def cmatch : CCls → Char → Bool
  | .digit, c => c.isDigit
  | .wordc, c => c.isAlphanum || c = '_'
  | .dot, c => c ≠ '\n'

/-- Pattern elements. `star cl greedy`; `rep13` is the greedy counted
repetition with bounds 1 and 3; `alt` tries the left branch first;
`grp` is a numbered capturing group around a subsequence. -/
inductive Pat where
  | lit : Char → Pat
  | one : CCls → Pat
  | star : CCls → Bool → Pat
  | rep13 : CCls → Pat
  | alt : List Pat → List Pat → Pat
  | grp : ℕ → List Pat → Pat

/-- Length of the maximal prefix of `s` whose characters are in `cl`. -/
def countRun (cl : CCls) : List Char → ℕ
  | [] => 0
  | c :: s => if cmatch cl c then countRun cl s + 1 else 0

/-- First success of `g` over a list of candidate consumption lengths. -/
def firstSome (g : ℕ → Option (List (ℕ × List Char))) :
    List ℕ → Option (List (ℕ × List Char))
  | [] => none
  | n :: ns =>
    match g n with
    | some r => some r
    | none => firstSome g ns

/-- Backtracking matcher in continuation-passing style.  `caps` is the
list of capture assignments made on the current path; the continuation
receives the remaining input and captures.  The fuel only bounds the
nesting depth of calls (each recursive call decreases it) and is chosen
far larger than the pattern and input sizes used. -/
def mseq : ℕ → List Pat → List Char →
    List (ℕ × List Char) →
    (List Char → List (ℕ × List Char) → Option (List (ℕ × List Char))) →
    Option (List (ℕ × List Char))
  | 0, _, _, _, _ => none
  | _ + 1, [], s, caps, k => k s caps
  | f + 1, p :: ps, s, caps, k =>
    match p with
    | .lit c =>
      match s with
      | [] => none
      | c' :: s' => if c' = c then mseq f ps s' caps k else none
    | .one cl =>
      match s with
      | [] => none
      | c' :: s' => if cmatch cl c' then mseq f ps s' caps k else none
    | .star cl greedy =>
      let m := countRun cl s
      let cands := if greedy then (List.range (m + 1)).reverse else List.range (m + 1)
      firstSome (fun n => mseq f ps (s.drop n) caps k) cands
    | .rep13 cl =>
      let m := min (countRun cl s) 3
      firstSome (fun n => mseq f ps (s.drop n) caps k)
        (((List.range m).map (· + 1)).reverse)
    | .alt a b =>
      match mseq f a s caps (fun s' caps' => mseq f ps s' caps' k) with
      | some r => some r
      | none => mseq f b s caps (fun s' caps' => mseq f ps s' caps' k)
    | .grp i sub =>
      mseq f sub s caps
        (fun s' caps' =>
          mseq f ps s' (caps' ++ [(i, s.take (s.length - s'.length))]) k)

/-- Anchored match of a whole pattern against a line, returning the
captures of the first match in Python's disambiguation order.  The
final-position check models the `$` anchor. -/
def reMatch (ps : List Pat) (s : List Char) : Option (List (ℕ × List Char)) :=
  mseq 1000 ps s [] (fun rest caps => if rest = [] ∨ rest = ['\n'] then some caps else none)

/-- The 1-to-3-digit dotted quad, as in groups 1 and 3. -/
def ipPat : List Pat :=
  [.rep13 .digit, .lit '.', .rep13 .digit, .lit '.', .rep13 .digit, .lit '.', .rep13 .digit]

/-- One quoted lazy capture followed by a space, as in groups 8-12. -/
def quotedLazy (i : ℕ) : List Pat :=
  [.lit '"', .grp i [.star .dot false], .lit '"', .lit ' ']

/-- The full `RE_NGINX_LOG_FORMAT` pattern, element by element. -/
def nginxPat : List Pat :=
  [.grp 1 ipPat, .lit ' ',
   .grp 2 [.alt [.lit '-'] [.star .wordc true]], .lit ' ', .lit ' ',
   .grp 3 [.alt [.lit '-'] ipPat], .lit ' ',
   .lit '[', .grp 4 [.star .dot true], .lit ']', .lit ' ',
   .lit '"', .star .dot true, .lit ' ', .grp 5 [.star .dot true], .lit ' ',
   .star .dot true, .lit '"', .lit ' ',
   .grp 6 [.star .digit true], .lit ' ', .grp 7 [.star .digit true], .lit ' ']
  ++ quotedLazy 8 ++ quotedLazy 9 ++ quotedLazy 10 ++ quotedLazy 11 ++ quotedLazy 12
  ++ [.grp 13 [.star .digit true, .one .dot, .star .digit true]]

/-- A record produced by `parse_line`: the url and the raw captured
request-time string (converted with `float` only later, in
`parse_logfile`). -/
structure ParsedRec where
  url : String
  request_time : String
deriving DecidableEq

/-- Capture lookup; groups of this pattern match at most once. -/
def getGroup (caps : List (ℕ × List Char)) (i : ℕ) : List Char :=
  match caps.lookup i with
  | some s => s
  | none => []

/-- `parse_line` (log_analyzer.py lines 102-116): match the line
against the grammar; on success return the records built from capture
groups 5 and 13, otherwise report no match (`None`). -/
def parse_line (line : String) : Option ParsedRec :=
  match reMatch nginxPat line.data with
  | none => none
  | some caps => some ⟨String.mk (getGroup caps 5), String.mk (getGroup caps 13)⟩

/-! ## Python dicts as insertion-ordered association lists -/

/-- Final parsing statistics, as augmented by `parse_logfile`:
`parsing_stats` holds `total`, `processed`, `uniq_urls_count` and
`all_req_time`. -/
structure PStats where
  total : ℕ
  processed : ℕ
  uniq_urls_count : ℕ
  all_req_time : ℚ
deriving DecidableEq

/-- A value of the `stats` dict built by `parse_logfile`: either a URL
aggregate `(url, time_arr)` or the terminal parsing-stats record.  Both
live under the same string key space — the source of the
`"parsing_stats"` key collision. -/
inductive PyVal where
  | agg : String → List ℚ → PyVal
  | pstats : PStats → PyVal
deriving DecidableEq

/-- The `stats` dict: insertion-ordered, unique keys. -/
abbrev Dict := List (String × PyVal)

/-- Python dict assignment `d[k] = v`: replace in place if the key is
present, otherwise append. -/
def dictSet (d : Dict) (k : String) (v : PyVal) : Dict :=
  match d with
  | [] => [(k, v)]
  | (k', v') :: rest => if k' = k then (k, v) :: rest else (k', v') :: dictSet rest k v

/-- Python `k in d`. -/
def containsKey (d : Dict) (k : String) : Bool :=
  d.any (fun kv => kv.1 = k)

/-- Python dict lookup `d[k]` (first — and only — binding of `k`). -/
def dictGet (d : Dict) (k : String) : Option PyVal :=
  (d.find? (fun kv => kv.1 = k)).map (fun kv => kv.2)

/-- Python `del d[k]`: remove the binding of `k`. -/
def dictDel (d : Dict) (k : String) : Dict :=
  match d with
  | [] => []
  | (k', v') :: rest => if k' = k then rest else (k', v') :: dictDel rest k

/-- `stats[url]["time_arr"].append(t)` on the aggregate stored at `url`
(the key is present whenever this runs in the source). -/
def appendVal : PyVal → ℚ → PyVal
  | .agg u arr, q => .agg u (arr ++ [q])
  | .pstats s, _ => .pstats s

/-- Append a sample to the aggregate stored at key `k`. -/
def appendTime (d : Dict) (k : String) (q : ℚ) : Dict :=
  match d with
  | [] => []
  | (k', v') :: rest =>
    if k' = k then (k', appendVal v' q) :: rest else (k', v') :: appendTime rest k q

/-! ## `parse_logfile` (log_analyzer.py lines 144-176)

`read_lines` yields one parsed record per matching line and, after the
file is exhausted, a single sentinel carrying `total` (all lines) and
`processed` (matching lines).  The input below is the per-line parse
outcome list: `none` for a line the grammar rejects, `some r` for a
parsed record.  `parse_logfile` consumes the records, building the
url-keyed dict of sample lists while tracking `uniq_urls_count` and
`all_req_time`, stores the sentinel under the key `"parsing_stats"`,
and finally applies the parse-quality gate. -/

/-- Aggregation state: the dict plus the two running totals. -/
structure AggState where
  stats : Dict
  uniq : ℕ
  art : ℚ

/-- Error message of the parse-quality gate (line 175). -/
def tooManyMsg : String := "Too many failed lines... Exiting"

/-- Error message of `float()` on a non-numeric string (line 167). -/
def floatErrMsg : String := "ValueError: could not convert string to float"

/-- The loop of `parse_logfile`: one step per parsed record, then the
sentinel assignment and the quality gate.  `total` and `processed` are
the final counter values the sentinel carries. -/
def parseLogfileAux (maxErrPerc : ℚ) : List ParsedRec → ℕ → ℕ → AggState →
    Except String Dict
  | [], total, processed, st =>
    if ((total - processed : ℕ) : ℚ) > (total : ℚ) / 100 * maxErrPerc then
      .error tooManyMsg
    else
      .ok (dictSet st.stats "parsing_stats" (.pstats ⟨total, processed, st.uniq, st.art⟩))
  | r :: rest, total, processed, st =>
    match pyFloat r.request_time with
    | none => .error floatErrMsg
    | some q =>
      parseLogfileAux maxErrPerc rest total processed
        ⟨appendTime (if containsKey st.stats r.url then st.stats
            else dictSet st.stats r.url (.agg r.url [])) r.url q,
         (if containsKey st.stats r.url then st.uniq else st.uniq + 1),
         st.art + q⟩

/-- Number of parsed (matching) lines. -/
def countSome (lines : List (Option ParsedRec)) : ℕ :=
  (lines.filterMap id).length

/-- `parse_logfile`: consume the outcome of every line of the file.
`total` is the number of lines, `processed` the number of parsed ones. -/
def parse_logfile (maxErrPerc : ℚ) (lines : List (Option ParsedRec)) :
    Except String Dict :=
  parseLogfileAux maxErrPerc (lines.filterMap id) lines.length (countSome lines) ⟨[], 0, 0⟩

/-! ## `calculate_stats` (log_analyzer.py lines 213-256) -/

/-- One row of the report: the summary computed for one URL
(`count_perc` and `time_perc` are the spec's `count_share` and
`time_share`). -/
structure Summary where
  url : String
  count : ℕ
  count_perc : ℚ
  time_sum : ℚ
  time_perc : ℚ
  time_avg : ℚ
  time_max : ℚ
  time_med : ℚ
deriving DecidableEq

/-- Message of a zero division in `/` (lines 231-238). -/
def divMsg : String := "ZeroDivisionError: float division by zero"

/-- Message of a zero division in `%` (lines 243 and 252). -/
def modMsg : String := "ZeroDivisionError: integer division or modulo by zero"

/-- The body of the first loop of `calculate_stats` (lines 229-240) for
one URL: sort the samples, then compute the eight summary fields, with
the divisions and the empty-sequence errors in source order. -/
def summarizeOne (total : ℕ) (art : ℚ) (url : String) (arr : List ℚ) :
    Except String Summary :=
  if (total : ℚ) = 0 then .error divMsg
  else if art = 0 then .error divMsg
  else if (pySorted arr).isEmpty then
    .error "StatisticsError: mean requires at least one data point"
  else
    match pyMax (pySorted arr) with
    | .error e => .error e
    | .ok mx =>
      .ok ⟨url, (pySorted arr).length,
        round3 (((pySorted arr).length : ℚ) * 100 / (total : ℚ)),
        round3 (pySorted arr).sum,
        round3 (round3 (pySorted arr).sum * 100 / art),
        round3 ((pySorted arr).sum / ((pySorted arr).length : ℚ)),
        mx,
        round3 (pyMedian (pySorted arr))⟩

/-- The first loop of `calculate_stats` (lines 228-246): summarize each
URL in dict order; after each row the progress expression
`processed % round(uniq_urls_count / 10)` runs and raises a
division-by-zero error when the rounded divisor is zero. -/
def summarizeAllGo (ps : PStats) : List (String × PyVal) → ℕ →
    Except String (List (String × Summary))
  | [], _ => .ok []
  | (_, .pstats _) :: _, _ => .error "KeyError: time_arr"
  | (k, .agg url arr) :: rest, proc =>
    match summarizeOne ps.total ps.all_req_time url arr with
    | .error e => .error e
    | .ok s =>
      if pyRound ((ps.uniq_urls_count : ℚ) / 10) = 0 then .error modMsg
      else
        match summarizeAllGo ps rest (proc + 1) with
        | .error e => .error e
        | .ok l => .ok ((k, s) :: l)

/-- Summarize the whole dict (after `parsing_stats` was removed). -/
def summarizeAll (ps : PStats) (items : List (String × PyVal)) :
    Except String (List (String × Summary)) :=
  summarizeAllGo ps items 0

/-- `max(raw_stats, key=lambda item: raw_stats[item]["time_sum"])`:
the first entry attaining the maximal `time_sum` (Python `max` replaces
the running best only on strictly greater). -/
def maxTimePair : List (String × Summary) → Option (String × Summary)
  | [] => none
  | p :: rest =>
    some (rest.foldl (fun best q => if best.2.time_sum < q.2.time_sum then q else best) p)

/-- Remove the binding of `k` from the summary dict. -/
def sdictDel (d : List (String × Summary)) (k : String) : List (String × Summary) :=
  match d with
  | [] => []
  | (k', v') :: rest => if k' = k then rest else (k', v') :: sdictDel rest k

/-- The second loop of `calculate_stats` (lines 248-255): `reportSize`
repeated extractions of the current maximum, each deleting the
extracted entry from the dict; `max` on the emptied dict raises, and
the progress expression `(i + 1) % round(REPORT_SIZE / 10)` raises when
its rounded divisor is zero.  Returns the selected entries and the
final state of the mutated dict. -/
def topNGo (reportSize : ℕ) : ℕ → List (String × Summary) →
    Except String (List (String × Summary) × List (String × Summary))
  | 0, d => .ok ([], d)
  | n + 1, d =>
    match maxTimePair d with
    | none => .error "ValueError: max() arg is an empty sequence"
    | some p =>
      if pyRound ((reportSize : ℚ) / 10) = 0 then .error modMsg
      else
        match topNGo reportSize n (sdictDel d p.1) with
        | .error e => .error e
        | .ok (sel, rest) => .ok (p :: sel, rest)

/-- Top-N selection over the summarized dict. -/
def topNSelect (reportSize : ℕ) (d : List (String × Summary)) :
    Except String (List (String × Summary) × List (String × Summary)) :=
  topNGo reportSize reportSize d

/-- Read the `parsing_stats` entry of the aggregate dict. -/
def getPStats (d : Dict) : Option PStats :=
  match dictGet d "parsing_stats" with
  | some (.pstats s) => some s
  | _ => none

/-- `calculate_stats`: pop `parsing_stats`, summarize every URL, then
select the `REPORT_SIZE` entries with greatest `time_sum`. -/
def calculate_stats (reportSize : ℕ) (raw : Dict) : Except String (List Summary) :=
  match getPStats raw with
  | none => .error "KeyError: parsing_stats"
  | some ps =>
    match summarizeAll ps (dictDel raw "parsing_stats") with
    | .error e => .error e
    | .ok l =>
      match topNSelect reportSize l with
      | .error e => .error e
      | .ok (sel, _) => .ok (sel.map (fun kv => kv.2))

/-! ## Measures over the aggregate dict and the summary list -/

/-- The sample list stored in a dict value (empty for the sentinel). -/
def samples : PyVal → List ℚ
  | .agg _ arr => arr
  | .pstats _ => []

/-- Total number of samples stored in the dict. -/
def sumLens (d : List (String × PyVal)) : ℕ :=
  (d.map (fun kv => (samples kv.2).length)).sum

/-- Total of all samples stored in the dict. -/
def sumTimes (d : List (String × PyVal)) : ℚ :=
  (d.map (fun kv => (samples kv.2).sum)).sum

/-- Every value of the dict is a URL aggregate. -/
def AllAgg (d : List (String × PyVal)) : Prop :=
  ∀ kv ∈ d, ∃ u a, kv.2 = PyVal.agg u a

/-- Every sample stored in the dict is nonnegative. -/
def NonnegVals (d : List (String × PyVal)) : Prop :=
  ∀ kv ∈ d, ∀ x ∈ samples kv.2, 0 ≤ x

/-- Sum of the `count` fields over a summary list. -/
def sumCounts (l : List (String × Summary)) : ℕ :=
  (l.map (fun kv => kv.2.count)).sum

/-- Sum of the `time_sum` fields over a summary list. -/
def sumTimeSums (l : List (String × Summary)) : ℚ :=
  (l.map (fun kv => kv.2.time_sum)).sum

/-- Sum of the `count_perc` fields over a summary list. -/
def sumCountPerc (l : List (String × Summary)) : ℚ :=
  (l.map (fun kv => kv.2.count_perc)).sum

/-- Sum of the `time_perc` fields over a summary list. -/
def sumTimePerc (l : List (String × Summary)) : ℚ :=
  (l.map (fun kv => kv.2.time_perc)).sum

/-! ## Concrete inputs used to settle the claims -/

/-- A matching line whose final space-delimited token is a single dash:
the grammar accepts it because the dot of `(\d*.\d*)` is an unescaped
wildcard, and `float` then rejects the captured string. -/
def dashTimeLine : String := "1.1.1.1 -  - [] \"a b c\" 2 3 \"\" \"\" \"\" \"\" \"\" -"

/-- A well-formed access-log line with URL `/a` and duration `0.100`. -/
def goodLine : String :=
  "1.2.3.4 -  - [t] \"GET /a HTTP/1.1\" 200 10 \"-\" \"-\" \"-\" \"-\" \"-\" 0.100"

/-- 100 lines of which 80 parse: a 20 percent failure rate. -/
def c2LinesBad : List (Option ParsedRec) :=
  (List.replicate 80 (some ⟨"a", "0.1"⟩)) ++ List.replicate 20 none

/-- 100 lines of which 97 parse: a 3 percent failure rate. -/
def c2LinesGood : List (Option ParsedRec) :=
  (List.replicate 97 (some ⟨"a", "0.1"⟩)) ++ List.replicate 3 none

/-- Six parsed lines, one of which carries the URL `"parsing_stats"`:
its five-second sample is destroyed by the sentinel assignment. -/
def clobberLines : List (Option ParsedRec) :=
  [some ⟨"parsing_stats", "5.0"⟩, some ⟨"u1", "1.0"⟩, some ⟨"u2", "1.0"⟩,
   some ⟨"u3", "1.0"⟩, some ⟨"u4", "1.0"⟩, some ⟨"u5", "1.0"⟩]

/-- Six parsed lines whose total request time is 0.0006: rounding the
per-URL `time_sum` up to 0.001 drives `time_perc` to 166.667. -/
def tinyTimeLines : List (Option ParsedRec) :=
  [some ⟨"u1", "0.0006"⟩, some ⟨"u2", "0.000"⟩, some ⟨"u3", "0.000"⟩,
   some ⟨"u4", "0.000"⟩, some ⟨"u5", "0.000"⟩, some ⟨"u6", "0.000"⟩]

/-- Seven parsed lines, one with the URL `"parsing_stats"`, leaving six
clean URLs so that the whole of `calculate_stats` runs with
`REPORT_SIZE = 6`. -/
def clobberLines7 : List (Option ParsedRec) :=
  [some ⟨"parsing_stats", "5.0"⟩, some ⟨"u1", "1.0"⟩, some ⟨"u2", "1.0"⟩,
   some ⟨"u3", "1.0"⟩, some ⟨"u4", "1.0"⟩, some ⟨"u5", "1.0"⟩, some ⟨"u6", "1.0"⟩]

/-- Six clean parsed lines: every URL distinct, every line parses. -/
def cleanLines : List (Option ParsedRec) :=
  [some ⟨"u1", "0.5"⟩, some ⟨"u2", "1.0"⟩, some ⟨"u3", "1.5"⟩,
   some ⟨"u4", "2.0"⟩, some ⟨"u5", "2.5"⟩, some ⟨"u6", "3.0"⟩]

/-- A summary used as a concrete top-N input. -/
def mkSummary (u : String) (t : ℚ) : Summary := ⟨u, 1, 0, t, 0, 0, 0, 0⟩

/-- Ten summarized entries with distinct, decreasing `time_sum`. -/
def tenEntries : List (String × Summary) :=
  [("u1", mkSummary "u1" 10), ("u2", mkSummary "u2" 9), ("u3", mkSummary "u3" 8),
   ("u4", mkSummary "u4" 7), ("u5", mkSummary "u5" 6), ("u6", mkSummary "u6" 5),
   ("u7", mkSummary "u7" 4), ("u8", mkSummary "u8" 3), ("u9", mkSummary "u9" 2),
   ("u10", mkSummary "u10" 1)]

/-- Six summarized entries with distinct, decreasing `time_sum`. -/
def sixEntries : List (String × Summary) :=
  [("u1", mkSummary "u1" 10), ("u2", mkSummary "u2" 9), ("u3", mkSummary "u3" 8),
   ("u4", mkSummary "u4" 7), ("u5", mkSummary "u5" 6), ("u6", mkSummary "u6" 5)]

/-- The aggregate dict `parse_logfile` produces from `cleanLines`. -/
def cleanDict : Dict :=
  [("u1", .agg "u1" [1/2]), ("u2", .agg "u2" [1]), ("u3", .agg "u3" [3/2]),
   ("u4", .agg "u4" [2]), ("u5", .agg "u5" [5/2]), ("u6", .agg "u6" [3]),
   ("parsing_stats", .pstats ⟨6, 6, 6, 21/2⟩)]

/-- The parsing stats carried by `cleanDict`. -/
def cleanPS : PStats := ⟨6, 6, 6, 21/2⟩

/-- The summaries computed from `cleanDict`. -/
def cleanSummaries : List (String × Summary) :=
  [("u1", ⟨"u1", 1, 16667/1000, 1/2, 2381/500, 1/2, 1/2, 1/2⟩),
   ("u2", ⟨"u2", 1, 16667/1000, 1, 2381/250, 1, 1, 1⟩),
   ("u3", ⟨"u3", 1, 16667/1000, 3/2, 7143/500, 3/2, 3/2, 3/2⟩),
   ("u4", ⟨"u4", 1, 16667/1000, 2, 2381/125, 2, 2, 2⟩),
   ("u5", ⟨"u5", 1, 16667/1000, 5/2, 2381/100, 5/2, 5/2, 5/2⟩),
   ("u6", ⟨"u6", 1, 16667/1000, 3, 28571/1000, 3, 3, 3⟩)]

/-- Correspondence between one dict item and one summary row: same key,
the item is an aggregate, and `summarizeOne` produced the row from it. -/
def SummRel (ps : PStats) (it : String × PyVal) (out : String × Summary) : Prop :=
  out.1 = it.1 ∧ ∃ url arr, it.2 = PyVal.agg url arr ∧
    summarizeOne ps.total ps.all_req_time url arr = .ok out.2

/-! ## Per-input checks of claimed properties

Each check runs the pipeline on one input and decides the claimed
property on that input (vacuously true when the pipeline fails
earlier than the property in question). -/

/-- On this input, does the sum of summary `count` fields equal
`parsing_stats["processed"]`, and the sum of the `time_sum` fields stay
within 0.001 per entry of `all_req_time`? -/
def sumInvariantCheck (p : ℚ) (lines : List (Option ParsedRec)) : Bool :=
  match parse_logfile p lines with
  | .error _ => true
  | .ok d =>
    match getPStats d with
    | none => true
    | some ps =>
      match summarizeAll ps (dictDel d "parsing_stats") with
      | .error _ => true
      | .ok l =>
        decide (sumCounts l = ps.processed) &&
        decide (|sumTimeSums l - ps.all_req_time| ≤ (l.length : ℚ) * (1/1000))

/-- On this input, are all summary `count_perc` and `time_perc` fields
within 0 and 100? -/
def shareBoundsCheck (p : ℚ) (lines : List (Option ParsedRec)) : Bool :=
  match parse_logfile p lines with
  | .error _ => true
  | .ok d =>
    match getPStats d with
    | none => true
    | some ps =>
      match summarizeAll ps (dictDel d "parsing_stats") with
      | .error _ => true
      | .ok l =>
        l.all (fun kv =>
          decide (0 ≤ kv.2.count_perc) && decide (kv.2.count_perc ≤ 100) &&
          decide (0 ≤ kv.2.time_perc) && decide (kv.2.time_perc ≤ 100))

/-- Run of the whole pipeline on `clobberLines7` with `REPORT_SIZE = 6`:
the sentinel overwrote the aggregate stored under the key
`"parsing_stats"`, the run completes, and neither the summaries nor the
top-N output mention that URL. -/
def clobberCheck : Bool :=
  match parse_logfile 5 clobberLines7 with
  | .error _ => false
  | .ok d =>
    (match dictGet d "parsing_stats" with
     | some (.pstats _) => true
     | _ => false) &&
    (match getPStats d with
     | none => false
     | some ps =>
       match summarizeAll ps (dictDel d "parsing_stats") with
       | .error _ => false
       | .ok l => l.all (fun kv => decide (kv.2.url ≠ "parsing_stats"))) &&
    (match calculate_stats 6 d with
     | .error _ => false
     | .ok sel =>
       decide (sel.length = 6) && sel.all (fun s => decide (s.url ≠ "parsing_stats")))

/-! ## Rounding lemmas -/

theorem roundHalfEven_abs_sub_le (q : ℚ) : |(roundHalfEven q : ℚ) - q| ≤ 1/2 := by
  have h0 : ((⌊q⌋ : ℤ) : ℚ) ≤ q := Int.floor_le q
  have h1 : q < ((⌊q⌋ : ℤ) : ℚ) + 1 := Int.lt_floor_add_one q
  unfold roundHalfEven
  split_ifs with h h2 h3 <;> push_cast <;> rw [abs_le] <;> constructor <;> linarith

theorem roundHalfEven_nonneg (q : ℚ) (h : 0 ≤ q) : 0 ≤ roundHalfEven q := by
  have h0 : (0 : ℤ) ≤ ⌊q⌋ := Int.floor_nonneg.mpr h
  unfold roundHalfEven
  split_ifs <;> omega

theorem roundHalfEven_le_int (q : ℚ) (B : ℤ) (h : q ≤ B) : roundHalfEven q ≤ B := by
  have hf : ⌊q⌋ ≤ B := by
    have := Int.floor_le_floor h
    simpa using this
  have h0 : ((⌊q⌋ : ℤ) : ℚ) ≤ q := Int.floor_le q
  unfold roundHalfEven
  split_ifs with hlt hgt heven
  · exact hf
  · -- fractional part exceeds 1/2, so q is strictly above its floor
    rcases lt_or_eq_of_le hf with h' | h'
    · omega
    · exfalso
      rw [h'] at h0
      have : q - (B : ℚ) > 1/2 := by
        have := hgt
        rw [h'] at this
        linarith
      linarith
  · exact hf
  · rcases lt_or_eq_of_le hf with h' | h'
    · omega
    · exfalso
      have hr : ¬ (q - ((⌊q⌋ : ℤ) : ℚ)) < 1/2 := hlt
      rw [h'] at hr
      have : q ≥ (B : ℚ) + 1/2 := by
        have := not_lt.mp hr
        linarith
      linarith

theorem round3_abs_sub_le (q : ℚ) : |round3 q - q| ≤ 1/2000 := by
  unfold round3
  have h := roundHalfEven_abs_sub_le (q * 1000)
  have heq : (roundHalfEven (q * 1000) : ℚ) / 1000 - q
      = ((roundHalfEven (q * 1000) : ℚ) - q * 1000) / 1000 := by ring
  rw [heq, abs_div]
  have h1000 : |(1000 : ℚ)| = 1000 := by norm_num
  rw [h1000]
  linarith

theorem round3_nonneg (q : ℚ) (h : 0 ≤ q) : 0 ≤ round3 q := by
  unfold round3
  have := roundHalfEven_nonneg (q * 1000) (by linarith)
  positivity

theorem round3_le_hundred (q : ℚ) (h : q ≤ 100) : round3 q ≤ 100 := by
  unfold round3
  have hb : roundHalfEven (q * 1000) ≤ (100000 : ℤ) :=
    roundHalfEven_le_int (q * 1000) 100000 (by push_cast; linarith)
  have : ((roundHalfEven (q * 1000) : ℤ) : ℚ) ≤ 100000 := by exact_mod_cast hb
  linarith

/-- Triangle-inequality bound for sums of three-digit roundings: a list
whose `F`-values are the roundings of its `G`-values has summed error
at most half a thousandth per entry. -/
theorem sum_round3_pointwise {α : Type} (l : List α) (F G : α → ℚ)
    (h : ∀ x ∈ l, F x = round3 (G x)) :
    |(l.map F).sum - (l.map G).sum| ≤ (l.length : ℚ) * (1/2000) := by
  induction l with
  | nil => simp
  | cons a t ih =>
    have ha : F a = round3 (G a) := h a (by simp)
    have ht := ih (fun x hx => h x (by simp [hx]))
    have h1 : |F a - G a| ≤ 1/2000 := by rw [ha]; exact round3_abs_sub_le (G a)
    have heq : ((a :: t).map F).sum - ((a :: t).map G).sum
        = (F a - G a) + (((t.map F).sum) - ((t.map G).sum)) := by
      simp only [List.map_cons, List.sum_cons]
      ring
    rw [heq]
    calc |(F a - G a) + ((t.map F).sum - (t.map G).sum)|
        ≤ |F a - G a| + |(t.map F).sum - (t.map G).sum| := abs_add _ _
      _ ≤ 1/2000 + (t.length : ℚ) * (1/2000) := by linarith
      _ = ((t.length : ℚ) + 1) * (1/2000) := by ring
      _ = (((a :: t).length : ℕ) : ℚ) * (1/2000) := by
          simp only [List.length_cons]
          push_cast
          ring

/-! ## Facts about `pyMax`, `pySorted`, `pyMedian` -/

theorem foldl_max_spec (x : ℚ) (xs : List ℚ) :
    xs.foldl max x ∈ x :: xs ∧ ∀ y ∈ x :: xs, y ≤ xs.foldl max x := by
  induction xs generalizing x with
  | nil => simp
  | cons a t ih =>
    have h := ih (max x a)
    have hmem : t.foldl max (max x a) ∈ x :: a :: t := by
      rcases List.mem_cons.mp h.1 with h1 | h1
      · rcases max_choice x a with hc | hc
        · rw [h1, hc]
          exact List.mem_cons_self x (a :: t)
        · rw [h1, hc]
          exact List.mem_cons_of_mem _ (List.mem_cons_self a t)
      · exact List.mem_cons_of_mem _ (List.mem_cons_of_mem _ h1)
    constructor
    · simpa using hmem
    intro y hy
    have hx : x ≤ t.foldl max (max x a) :=
      le_trans (le_max_left x a) (h.2 _ (List.mem_cons_self _ _))
    have hA : a ≤ t.foldl max (max x a) :=
      le_trans (le_max_right x a) (h.2 _ (List.mem_cons_self _ _))
    rcases List.mem_cons.mp hy with rfl | hy'
    · simpa using hx
    rcases List.mem_cons.mp hy' with rfl | hy''
    · simpa using hA
    · simpa using h.2 y (List.mem_cons_of_mem _ hy'')

theorem pyMax_ok (l : List ℚ) (m : ℚ) (h : pyMax l = .ok m) :
    m ∈ l ∧ ∀ y ∈ l, y ≤ m := by
  cases l with
  | nil => simp [pyMax] at h
  | cons x xs =>
    have hm : xs.foldl max x = m := by
      have h' := h
      simp only [pyMax, Except.ok.injEq] at h'
      exact h'
    rw [← hm]
    exact foldl_max_spec x xs

theorem pySorted_perm (l : List ℚ) : List.Perm (pySorted l) l :=
  List.perm_insertionSort _ l

theorem pySorted_sum (l : List ℚ) : (pySorted l).sum = l.sum :=
  (pySorted_perm l).sum_eq

theorem pySorted_length (l : List ℚ) : (pySorted l).length = l.length :=
  (pySorted_perm l).length_eq

theorem pySorted_idem (l : List ℚ) : pySorted (pySorted l) = pySorted l :=
  List.Sorted.insertionSort_eq (List.sorted_insertionSort _ l)

/-- `statistics.median` applied to the already-sorted samples computes
exactly the spec's median of the raw samples. -/
theorem pyMedian_pySorted (l : List ℚ) : pyMedian (pySorted l) = medianSpec l := by
  unfold pyMedian medianSpec
  rw [pySorted_idem, pySorted_length]
  rfl

/-! ## Inversion of `summarizeOne` -/

/-- A successful summary determines every field from the raw samples
exactly as the spec's formulas state them. -/
theorem summarizeOne_ok (total : ℕ) (art : ℚ) (url : String) (arr : List ℚ)
    (s : Summary) (h : summarizeOne total art url arr = .ok s) :
    (total : ℚ) ≠ 0 ∧ art ≠ 0 ∧ arr ≠ [] ∧
    s.url = url ∧
    s.count = arr.length ∧
    s.count_perc = round3 ((arr.length : ℚ) * 100 / (total : ℚ)) ∧
    s.time_sum = round3 arr.sum ∧
    s.time_perc = round3 (s.time_sum * 100 / art) ∧
    s.time_avg = round3 (arr.sum / (arr.length : ℚ)) ∧
    (s.time_max ∈ arr ∧ ∀ x ∈ arr, x ≤ s.time_max) ∧
    s.time_med = round3 (medianSpec arr) := by
  unfold summarizeOne at h
  split_ifs at h with h1 h2 h3
  rcases hval : pyMax (pySorted arr) with e | mx
  · rw [hval] at h
    cases h
  · rw [hval] at h
    have hs : s = ⟨url, (pySorted arr).length,
        round3 (((pySorted arr).length : ℚ) * 100 / (total : ℚ)),
        round3 (pySorted arr).sum,
        round3 (round3 (pySorted arr).sum * 100 / art),
        round3 ((pySorted arr).sum / ((pySorted arr).length : ℚ)),
        mx, round3 (pyMedian (pySorted arr))⟩ := by
      cases h
      rfl
    have hlen := pySorted_length arr
    have hsum := pySorted_sum arr
    have hne : arr ≠ [] := by
      intro hnil
      rw [hnil] at h3
      simp [pySorted] at h3
    have hmax := pyMax_ok _ _ hval
    subst hs
    refine ⟨h1, h2, hne, rfl, hlen, ?_, ?_, rfl, ?_, ⟨?_, ?_⟩, ?_⟩
    · dsimp only
      rw [hlen]
    · dsimp only
      rw [hsum]
    · dsimp only
      rw [hsum, hlen]
    · exact (pySorted_perm arr).mem_iff.mp hmax.1
    · intro x hx
      exact hmax.2 x ((pySorted_perm arr).mem_iff.mpr hx)
    · dsimp only
      rw [pyMedian_pySorted]

/-- The summary succeeds whenever both divisors are nonzero and the
sample list is nonempty. -/
theorem summarizeOne_isOk (total : ℕ) (art : ℚ) (url : String) (arr : List ℚ)
    (h1 : (total : ℚ) ≠ 0) (h2 : art ≠ 0) (h3 : arr ≠ []) :
    ∃ s, summarizeOne total art url arr = .ok s := by
  unfold summarizeOne
  rw [if_neg h1, if_neg h2]
  have hne : ¬ (pySorted arr).isEmpty := by
    rcases hb : pySorted arr with _ | ⟨x, xs⟩
    · exfalso
      apply h3
      have := pySorted_length arr
      rw [hb] at this
      exact List.length_eq_zero.mp this.symm
    · simp
  rw [if_neg hne]
  rcases hb : pySorted arr with _ | ⟨x, xs⟩
  · simp [hb] at hne
  · exact ⟨_, rfl⟩

/-! ## Dict lemmas -/

theorem dictGet_dictSet (d : Dict) (k : String) (v : PyVal) :
    dictGet (dictSet d k v) k = some v := by
  induction d with
  | nil => simp [dictSet, dictGet]
  | cons kv rest ih =>
    by_cases h : kv.1 = k
    · simp [dictSet, h, dictGet]
    · simp only [dictSet, if_neg h]
      rw [dictGet, List.find?_cons_of_neg]
      · exact ih
      · simpa using h

theorem dictDel_dictSet (d : Dict) (k : String) (v : PyVal) :
    dictDel (dictSet d k v) k = dictDel d k := by
  induction d with
  | nil => simp [dictSet, dictDel]
  | cons kv rest ih =>
    by_cases h : kv.1 = k
    · simp [dictSet, dictDel, h]
    · simp [dictSet, dictDel, h, ih]

theorem dictDel_of_not_contains (d : Dict) (k : String)
    (h : containsKey d k = false) : dictDel d k = d := by
  induction d with
  | nil => rfl
  | cons kv rest ih =>
    simp only [containsKey, List.any_cons, Bool.or_eq_false_iff] at h
    have h1 : kv.1 ≠ k := by simpa using h.1
    have h2 : containsKey rest k = false := by simpa [containsKey] using h.2
    simp [dictDel, h1, ih h2]

theorem dictDel_sublist (d : Dict) (k : String) : List.Sublist (dictDel d k) d := by
  induction d with
  | nil => simp [dictDel]
  | cons kv rest ih =>
    by_cases h : kv.1 = k
    · simp only [dictDel, if_pos h]
      exact List.sublist_cons_self kv rest
    · simp only [dictDel, if_neg h]
      exact ih.cons₂ kv

theorem sumLens_dictDel_le (d : Dict) (k : String) :
    sumLens (dictDel d k) ≤ sumLens d := by
  induction d with
  | nil => simp [dictDel]
  | cons kv rest ih =>
    by_cases h : kv.1 = k
    · simp only [dictDel, if_pos h, sumLens, List.map_cons, List.sum_cons]
      omega
    · simp only [dictDel, if_neg h, sumLens, List.map_cons, List.sum_cons] at *
      omega

/-- Appending a sample at a present aggregate key: one more sample, the
new sample added to the total, keys and aggregate shape preserved. -/
theorem appendTime_spec (d : Dict) (k : String) (q : ℚ)
    (hall : AllAgg d) (hc : containsKey d k = true) :
    sumLens (appendTime d k q) = sumLens d + 1 ∧
    sumTimes (appendTime d k q) = sumTimes d + q ∧
    AllAgg (appendTime d k q) ∧
    (∀ k', containsKey (appendTime d k q) k' = containsKey d k') ∧
    (NonnegVals d → 0 ≤ q → NonnegVals (appendTime d k q)) := by
  induction d with
  | nil => simp [containsKey] at hc
  | cons kv rest ih =>
    by_cases h : kv.1 = k
    · obtain ⟨u, a, hv⟩ := hall kv (List.mem_cons_self _ _)
      refine ⟨?_, ?_, ?_, ?_, ?_⟩
      · simp [appendTime, h, sumLens, hv, appendVal, samples]
        omega
      · simp [appendTime, h, sumTimes, hv, appendVal, samples]
        ring
      · intro kv' hkv'
        simp only [appendTime, if_pos h] at hkv'
        rcases List.mem_cons.mp hkv' with rfl | hmem
        · exact ⟨u, a ++ [q], by simp [hv, appendVal]⟩
        · exact hall kv' (List.mem_cons_of_mem _ hmem)
      · intro k'
        simp [appendTime, h, containsKey]
      · intro hnn hq kv' hkv' x hx
        simp only [appendTime, if_pos h] at hkv'
        rcases List.mem_cons.mp hkv' with rfl | hmem
        · simp only [hv, appendVal, samples] at hx
          rcases List.mem_append.mp hx with hx' | hx'
          · exact hnn kv (List.mem_cons_self _ _) x (by simpa [hv, samples] using hx')
          · simp only [List.mem_singleton] at hx'
            rw [hx']
            exact hq
        · exact hnn kv' (List.mem_cons_of_mem _ hmem) x hx
    · have hc' : containsKey rest k = true := by
        simp only [containsKey, List.any_cons] at hc
        rcases Bool.or_eq_true_iff.mp hc with h1 | h1
        · exact absurd (by simpa using h1) h
        · simpa [containsKey] using h1
      have hall' : AllAgg rest := fun kv' hkv' => hall kv' (List.mem_cons_of_mem _ hkv')
      obtain ⟨hl, ht, ha, hk, hn⟩ := ih hall' hc'
      refine ⟨?_, ?_, ?_, ?_, ?_⟩
      · simp only [appendTime, if_neg h, sumLens, List.map_cons, List.sum_cons] at *
        omega
      · simp only [appendTime, if_neg h, sumTimes, List.map_cons, List.sum_cons] at *
        rw [ht]
        ring
      · intro kv' hkv'
        simp only [appendTime, if_neg h] at hkv'
        rcases List.mem_cons.mp hkv' with rfl | hmem
        · exact hall kv (List.mem_cons_self _ _)
        · exact ha kv' hmem
      · intro k'
        simp only [appendTime, if_neg h, containsKey, List.any_cons] at *
        rw [hk k']
      · intro hnn hq kv' hkv' x hx
        simp only [appendTime, if_neg h] at hkv'
        rcases List.mem_cons.mp hkv' with rfl | hmem
        · exact hnn kv (List.mem_cons_self _ _) x hx
        · exact hn (fun kv'' hkv'' => hnn kv'' (List.mem_cons_of_mem _ hkv'')) hq kv' hmem x hx

/-- Inserting a fresh key appends it at the end of the dict. -/
theorem dictSet_fresh (d : Dict) (k : String) (v : PyVal)
    (h : containsKey d k = false) : dictSet d k v = d ++ [(k, v)] := by
  induction d with
  | nil => simp [dictSet]
  | cons kv rest ih =>
    simp only [containsKey, List.any_cons, Bool.or_eq_false_iff] at h
    have h1 : kv.1 ≠ k := by simpa using h.1
    have h2 : containsKey rest k = false := by simpa [containsKey] using h.2
    simp [dictSet, h1, ih h2]

theorem containsKey_append_singleton (d : Dict) (k k' : String) (v : PyVal) :
    containsKey (d ++ [(k, v)]) k' = (containsKey d k' || decide (k = k')) := by
  simp [containsKey, List.any_append]

theorem sumLens_append_empty_agg (d : Dict) (k u : String) :
    sumLens (d ++ [(k, PyVal.agg u [])]) = sumLens d := by
  simp [sumLens, samples]

theorem sumTimes_append_empty_agg (d : Dict) (k u : String) :
    sumTimes (d ++ [(k, PyVal.agg u [])]) = sumTimes d := by
  simp [sumTimes, samples]

/-! ## The parse-quality gate -/

/-- One unfolding step of the aggregation loop on a record whose
request time converts. -/
theorem parseAux_cons (p : ℚ) (r : ParsedRec) (rest : List ParsedRec) (t pr : ℕ)
    (st : AggState) (q : ℚ) (hq : pyFloat r.request_time = some q) :
    parseLogfileAux p (r :: rest) t pr st =
      parseLogfileAux p rest t pr
        ⟨appendTime (if containsKey st.stats r.url then st.stats
            else dictSet st.stats r.url (.agg r.url [])) r.url q,
         if containsKey st.stats r.url then st.uniq else st.uniq + 1,
         st.art + q⟩ := by
  conv_lhs => rw [parseLogfileAux]
  rw [hq]

/-- The aggregation loop fails at a record whose request time does not
convert. -/
theorem parseAux_cons_err (p : ℚ) (r : ParsedRec) (rest : List ParsedRec) (t pr : ℕ)
    (st : AggState) (hq : pyFloat r.request_time = none) :
    parseLogfileAux p (r :: rest) t pr st = .error floatErrMsg := by
  conv_lhs => rw [parseLogfileAux]
  rw [hq]

/-- When every record's request time converts, the loop reaches the
sentinel: the run fails with the quality message exactly when the gate
condition on the final counters holds, and otherwise produces the
completed dict. -/
theorem parseAux_gate (recs : List ParsedRec) (p : ℚ) (t pr : ℕ) (st : AggState)
    (hfl : ∀ r ∈ recs, (pyFloat r.request_time).isSome) :
    (parseLogfileAux p recs t pr st = .error tooManyMsg ↔
      ((t - pr : ℕ) : ℚ) > (t : ℚ) / 100 * p) ∧
    (¬ ((t - pr : ℕ) : ℚ) > (t : ℚ) / 100 * p →
      ∃ d, parseLogfileAux p recs t pr st = .ok d) := by
  induction recs generalizing st with
  | nil =>
    constructor
    · unfold parseLogfileAux
      split_ifs with hg
      · simp [hg]
      · simpa using hg
    · intro hg
      refine ⟨dictSet st.stats "parsing_stats" (.pstats ⟨t, pr, st.uniq, st.art⟩), ?_⟩
      unfold parseLogfileAux
      rw [if_neg hg]
  | cons r rest ih =>
    have hr : (pyFloat r.request_time).isSome := hfl r (List.mem_cons_self _ _)
    obtain ⟨q, hq⟩ := Option.isSome_iff_exists.mp hr
    rw [parseAux_cons p r rest t pr st q hq]
    exact ih _ (fun r' hr' => hfl r' (List.mem_cons_of_mem _ hr'))

/-! ## The aggregation invariant -/

/-- Invariant of the aggregation loop.  For a successful run: the
sentinel carries the given final counters; the retained sample count
never exceeds the records consumed; when no record uses the reserved
key and the key is absent, sample count and sample total are preserved
exactly; and nonnegative inputs keep every stored sample and the
running total nonnegative. -/
theorem parseAux_ok_inv (recs : List ParsedRec) (p : ℚ) (t pr : ℕ)
    (st : AggState) (d : Dict)
    (h : parseLogfileAux p recs t pr st = .ok d)
    (hall : AllAgg st.stats) :
    ∃ u a, getPStats d = some ⟨t, pr, u, a⟩ ∧
      sumLens (dictDel d "parsing_stats") ≤ sumLens st.stats + recs.length ∧
      ((∀ r ∈ recs, r.url ≠ "parsing_stats") →
         containsKey st.stats "parsing_stats" = false →
         sumLens (dictDel d "parsing_stats") = sumLens st.stats + recs.length ∧
         sumTimes (dictDel d "parsing_stats") = sumTimes st.stats + (a - st.art)) ∧
      ((∀ r ∈ recs, ∀ q, pyFloat r.request_time = some q → 0 ≤ q) →
         NonnegVals st.stats →
         NonnegVals (dictDel d "parsing_stats") ∧ st.art ≤ a) := by
  induction recs generalizing st with
  | nil =>
    unfold parseLogfileAux at h
    split_ifs at h with hg
    have hd : d = dictSet st.stats "parsing_stats" (.pstats ⟨t, pr, st.uniq, st.art⟩) := by
      exact (Except.ok.injEq _ _).mp h.symm
    subst hd
    refine ⟨st.uniq, st.art, ?_, ?_, ?_, ?_⟩
    · unfold getPStats
      rw [dictGet_dictSet]
    · rw [dictDel_dictSet]
      simpa using sumLens_dictDel_le st.stats "parsing_stats"
    · intro _ hkey
      rw [dictDel_dictSet, dictDel_of_not_contains _ _ hkey]
      simp
    · intro _ hnn
      rw [dictDel_dictSet]
      refine ⟨?_, le_refl _⟩
      intro kv hkv x hx
      exact hnn kv (List.Sublist.mem hkv (dictDel_sublist _ _)) x hx
  | cons r rest ih =>
    rcases hq : pyFloat r.request_time with _ | q
    · rw [parseAux_cons_err p r rest t pr st hq] at h
      cases h
    · rw [parseAux_cons p r rest t pr st q hq] at h
      by_cases hc : containsKey st.stats r.url
      · -- the URL is already present: append to its aggregate
        rw [if_pos hc, if_pos hc] at h
        obtain ⟨hl, ht, ha, hk, hn⟩ := appendTime_spec st.stats r.url q hall hc
        obtain ⟨u, a, hps, hle, hexact, hnn⟩ := ih _ h ha
        dsimp only at hle hexact hnn
        refine ⟨u, a, hps, ?_, ?_, ?_⟩
        · simp only [List.length_cons]
          omega
        · intro hnps hkey
          have hkey' : containsKey (appendTime st.stats r.url q) "parsing_stats" = false := by
            rw [hk]
            exact hkey
          obtain ⟨he1, he2⟩ := hexact (fun r' hr' => hnps r' (List.mem_cons_of_mem _ hr')) hkey'
          constructor
          · rw [he1, hl]
            simp [List.length_cons]
            omega
          · rw [he2, ht]
            ring
        · intro hq0 hnnv
          have hq' : 0 ≤ q := hq0 r (List.mem_cons_self _ _) q hq
          obtain ⟨hn1, hn2⟩ := hnn (fun r' hr' q' hq'' => hq0 r' (List.mem_cons_of_mem _ hr') q' hq'')
            (hn hnnv hq')
          exact ⟨hn1, by linarith⟩
      · -- fresh URL: create an empty aggregate, then append
        rw [if_neg hc, if_neg hc] at h
        have hfresh := dictSet_fresh st.stats r.url (.agg r.url []) (by simpa using hc)
        have hall1 : AllAgg (dictSet st.stats r.url (.agg r.url [])) := by
          rw [hfresh]
          intro kv hkv
          rcases List.mem_append.mp hkv with hm | hm
          · exact hall kv hm
          · simp only [List.mem_singleton] at hm
            exact ⟨r.url, [], by rw [hm]⟩
        have hc1 : containsKey (dictSet st.stats r.url (.agg r.url [])) r.url = true := by
          rw [hfresh, containsKey_append_singleton]
          simp
        obtain ⟨hl, ht, ha, hk, hn⟩ := appendTime_spec _ r.url q hall1 hc1
        obtain ⟨u, a, hps, hle, hexact, hnn⟩ := ih _ h ha
        dsimp only at hle hexact hnn
        have hlens : sumLens (dictSet st.stats r.url (.agg r.url [])) = sumLens st.stats := by
          rw [hfresh]
          exact sumLens_append_empty_agg _ _ _
        have htimes : sumTimes (dictSet st.stats r.url (.agg r.url [])) = sumTimes st.stats := by
          rw [hfresh]
          exact sumTimes_append_empty_agg _ _ _
        refine ⟨u, a, hps, ?_, ?_, ?_⟩
        · simp only [List.length_cons]
          rw [hl, hlens] at hle
          omega
        · intro hnps hkey
          have hru : r.url ≠ "parsing_stats" := hnps r (List.mem_cons_self _ _)
          have hkey' : containsKey (appendTime (dictSet st.stats r.url (.agg r.url [])) r.url q)
              "parsing_stats" = false := by
            rw [hk, hfresh, containsKey_append_singleton, hkey]
            simpa using hru
          obtain ⟨he1, he2⟩ := hexact (fun r' hr' => hnps r' (List.mem_cons_of_mem _ hr')) hkey'
          constructor
          · rw [he1, hl, hlens]
            simp [List.length_cons]
            omega
          · rw [he2, ht, htimes]
            ring
        · intro hq0 hnnv
          have hq' : 0 ≤ q := hq0 r (List.mem_cons_self _ _) q hq
          have hnnv1 : NonnegVals (dictSet st.stats r.url (.agg r.url [])) := by
            rw [hfresh]
            intro kv hkv x hx
            rcases List.mem_append.mp hkv with hm | hm
            · exact hnnv kv hm x hx
            · simp only [List.mem_singleton] at hm
              rw [hm] at hx
              simp [samples] at hx
          obtain ⟨hn1, hn2⟩ := hnn (fun r' hr' q' hq'' => hq0 r' (List.mem_cons_of_mem _ hr') q' hq'')
            (hn hnnv1 hq')
          exact ⟨hn1, by linarith⟩

/-! ## The summarization loop -/

/-- A successful summarization pairs the dict items one to one with
summaries produced by `summarizeOne` under the same key. -/
theorem summarizeAllGo_ok (ps : PStats) (items : List (String × PyVal)) (proc : ℕ)
    (l : List (String × Summary)) (h : summarizeAllGo ps items proc = .ok l) :
    List.Forall₂ (SummRel ps) items l := by
  induction items generalizing proc l with
  | nil =>
    unfold summarizeAllGo at h
    cases h
    exact List.Forall₂.nil
  | cons kv rest ih =>
    obtain ⟨k, v⟩ := kv
    cases v with
    | pstats s0 =>
      unfold summarizeAllGo at h
      cases h
    | agg u arr =>
      unfold summarizeAllGo at h
      rcases hso : summarizeOne ps.total ps.all_req_time u arr with e | s
      · rw [hso] at h
        cases h
      · rw [hso] at h
        split_ifs at h with hmod
        rcases hrec : summarizeAllGo ps rest (proc + 1) with e | l'
        · rw [hrec] at h
          cases h
        · rw [hrec] at h
          cases h
          exact List.Forall₂.cons ⟨rfl, u, arr, rfl, hso⟩ (ih _ _ hrec)

/-- A successful summarization of the whole dict. -/
theorem summarizeAll_ok (ps : PStats) (items : List (String × PyVal))
    (l : List (String × Summary)) (h : summarizeAll ps items = .ok l) :
    List.Forall₂ (SummRel ps) items l :=
  summarizeAllGo_ok ps items 0 l h

/-- When the rounded tenth of the unique-URL count is zero, the first
iteration of the summarization loop raises the modulo error (provided
the summary itself succeeds). -/
theorem summarizeAllGo_mod_error (ps : PStats) (k : String) (url : String)
    (arr : List ℚ) (rest : List (String × PyVal)) (proc : ℕ)
    (h1 : (ps.total : ℚ) ≠ 0) (h2 : ps.all_req_time ≠ 0) (h3 : arr ≠ [])
    (hu : pyRound ((ps.uniq_urls_count : ℚ) / 10) = 0) :
    summarizeAllGo ps ((k, PyVal.agg url arr) :: rest) proc = .error modMsg := by
  obtain ⟨s, hs⟩ := summarizeOne_isOk ps.total ps.all_req_time url arr h1 h2 h3
  unfold summarizeAllGo
  rw [hs]
  simp [hu]

/-- Banker's rounding sends `u / 10` to zero for `u` between 1 and 5. -/
theorem pyRound_div10_eq_zero (u : ℕ) (h1 : 1 ≤ u) (h5 : u ≤ 5) :
    pyRound ((u : ℚ) / 10) = 0 := by
  interval_cases u <;> with_unfolding_all decide

/-! ## Top-N extraction -/

theorem foldl_maxpair_spec (p : String × Summary) (l : List (String × Summary)) :
    l.foldl (fun best q => if best.2.time_sum < q.2.time_sum then q else best) p ∈ p :: l ∧
    ∀ q ∈ p :: l, q.2.time_sum ≤
      (l.foldl (fun best q => if best.2.time_sum < q.2.time_sum then q else best) p).2.time_sum := by
  induction l generalizing p with
  | nil => simp
  | cons a t ih =>
    have h := ih (if p.2.time_sum < a.2.time_sum then a else p)
    have hacc : (if p.2.time_sum < a.2.time_sum then a else p) ∈ p :: a :: t := by
      split_ifs
      · exact List.mem_cons_of_mem _ (List.mem_cons_self _ _)
      · exact List.mem_cons_self _ _
    have hmem : (a :: t).foldl (fun best q => if best.2.time_sum < q.2.time_sum then q else best) p
        ∈ p :: a :: t := by
      rcases List.mem_cons.mp h.1 with h1 | h1
      · rw [List.foldl_cons, h1]
        exact hacc
      · rw [List.foldl_cons]
        exact List.mem_cons_of_mem _ (List.mem_cons_of_mem _ h1)
    refine ⟨hmem, ?_⟩
    intro q hq
    have hup : p.2.time_sum ≤ (if p.2.time_sum < a.2.time_sum then a else p).2.time_sum := by
      split_ifs with hs
      · exact le_of_lt hs
      · exact le_refl _
    have hua : a.2.time_sum ≤ (if p.2.time_sum < a.2.time_sum then a else p).2.time_sum := by
      split_ifs with hs
      · exact le_refl _
      · exact le_of_not_lt hs
    have hbase := h.2 (if p.2.time_sum < a.2.time_sum then a else p) (List.mem_cons_self _ _)
    rw [List.foldl_cons]
    rcases List.mem_cons.mp hq with rfl | hq'
    · exact le_trans hup hbase
    rcases List.mem_cons.mp hq' with rfl | hq''
    · exact le_trans hua hbase
    · exact h.2 q (List.mem_cons_of_mem _ hq'')

/-- The extracted pair is in the dict and its `time_sum` dominates. -/
theorem maxTimePair_spec (d : List (String × Summary)) (p : String × Summary)
    (h : maxTimePair d = some p) :
    p ∈ d ∧ ∀ q ∈ d, q.2.time_sum ≤ p.2.time_sum := by
  cases d with
  | nil => cases h
  | cons x xs =>
    have hp : xs.foldl (fun best q => if best.2.time_sum < q.2.time_sum then q else best) x = p := by
      have h' := h
      simp only [maxTimePair, Option.some.injEq] at h'
      exact h'
    rw [← hp]
    exact foldl_maxpair_spec x xs

theorem maxTimePair_nil_iff (d : List (String × Summary)) :
    maxTimePair d = none ↔ d = [] := by
  cases d <;> simp [maxTimePair]

theorem sdictDel_sublist (d : List (String × Summary)) (k : String) :
    List.Sublist (sdictDel d k) d := by
  induction d with
  | nil => simp [sdictDel]
  | cons kv rest ih =>
    by_cases h : kv.1 = k
    · simp only [sdictDel, if_pos h]
      exact List.sublist_cons_self kv rest
    · simp only [sdictDel, if_neg h]
      exact ih.cons₂ kv

/-- Deleting the key of a member pair of a key-nodup dict removes
exactly that pair. -/
theorem sdictDel_perm (d : List (String × Summary)) (p : String × Summary)
    (hnd : (d.map Prod.fst).Nodup) (hp : p ∈ d) :
    List.Perm (p :: sdictDel d p.1) d := by
  induction d with
  | nil => cases hp
  | cons q rest ih =>
    rcases List.mem_cons.mp hp with rfl | hmem
    · have hdel : sdictDel (p :: rest) p.1 = rest := by
        simp [sdictDel]
      rw [hdel]
    · by_cases h : q.1 = p.1
      · exfalso
        simp only [List.map_cons, List.nodup_cons] at hnd
        exact hnd.1 (h ▸ List.mem_map_of_mem Prod.fst hmem)
      · have hdel : sdictDel (q :: rest) p.1 = q :: sdictDel rest p.1 := by
          simp [sdictDel, h]
        rw [hdel]
        have hperm := ih (by
          simp only [List.map_cons, List.nodup_cons] at hnd
          exact hnd.2) hmem
        exact List.Perm.trans (List.Perm.swap q p _) (hperm.cons q)

theorem sdictDel_length_of_mem (d : List (String × Summary)) (p : String × Summary)
    (hp : p ∈ d) : (sdictDel d p.1).length + 1 = d.length := by
  induction d with
  | nil => cases hp
  | cons q rest ih =>
    by_cases h : q.1 = p.1
    · simp [sdictDel, h]
    · have hmem : p ∈ rest := by
        rcases List.mem_cons.mp hp with rfl | hm
        · exact absurd rfl h
        · exact hm
      simp only [sdictDel, if_neg h, List.length_cons]
      rw [← ih hmem]

/-- One step of the extraction loop when the dict is empty. -/
theorem topNGo_succ_none (N n : ℕ) (d : List (String × Summary))
    (h : maxTimePair d = none) :
    topNGo N (n + 1) d = .error "ValueError: max() arg is an empty sequence" := by
  conv_lhs => rw [topNGo]
  rw [h]

/-- One step of the extraction loop when a maximum exists. -/
theorem topNGo_succ_some (N n : ℕ) (d : List (String × Summary))
    (p : String × Summary) (h : maxTimePair d = some p) :
    topNGo N (n + 1) d =
      if pyRound ((N : ℚ) / 10) = 0 then .error modMsg
      else
        match topNGo N n (sdictDel d p.1) with
        | .error e => .error e
        | .ok (sel, rest) => .ok (p :: sel, rest) := by
  conv_lhs => rw [topNGo]
  rw [h]

/-- Master lemma for the extraction loop: a successful run of `n`
extractions returns `n` entries; together with the remainder they are a
permutation of the input; every selected entry dominates the whole
remainder; and the selected entries are listed with non-increasing
`time_sum`. -/
theorem topNGo_ok (N : ℕ) : ∀ (n : ℕ) (d sel rest : List (String × Summary)),
    topNGo N n d = .ok (sel, rest) →
    (d.map Prod.fst).Nodup →
    sel.length = n ∧ List.Perm (sel ++ rest) d ∧
    (∀ p ∈ sel, ∀ q ∈ rest, q.2.time_sum ≤ p.2.time_sum) ∧
    List.Pairwise (fun a b => b.2.time_sum ≤ a.2.time_sum) sel := by
  intro n
  induction n with
  | zero =>
    intro d sel rest h hnd
    unfold topNGo at h
    cases h
    exact ⟨rfl, List.Perm.refl _, by simp, List.Pairwise.nil⟩
  | succ n ih =>
    intro d sel rest h hnd
    rcases hmx : maxTimePair d with _ | p
    · rw [topNGo_succ_none N n d hmx] at h
      cases h
    · rw [topNGo_succ_some N n d p hmx] at h
      split_ifs at h with hmod
      rcases hrec : topNGo N n (sdictDel d p.1) with e | pr
      · rw [hrec] at h
        cases h
      · obtain ⟨sel', rest'⟩ := pr
        rw [hrec] at h
        cases h
        obtain ⟨hpd, hdom⟩ := maxTimePair_spec d p hmx
        have hperm0 : List.Perm (p :: sdictDel d p.1) d := sdictDel_perm d p hnd hpd
        have hnd' : ((sdictDel d p.1).map Prod.fst).Nodup :=
          List.Nodup.sublist (List.Sublist.map Prod.fst (sdictDel_sublist d p.1)) hnd
        obtain ⟨hlen, hperm, hbound, hpair⟩ := ih (sdictDel d p.1) sel' rest hrec hnd'
        have hsub : ∀ q ∈ sel' ++ rest, q ∈ d := by
          intro q hq
          have hmem : q ∈ sdictDel d p.1 := hperm.mem_iff.mp hq
          exact List.Sublist.mem hmem (sdictDel_sublist d p.1)
        refine ⟨by simp [hlen], ?_, ?_, ?_⟩
        · refine List.Perm.trans ?_ hperm0
          simpa using hperm.cons p
        · intro p' hp' q hq
          rcases List.mem_cons.mp hp' with rfl | hp''
          · exact hdom q (hsub q (List.mem_append_right _ hq))
          · exact hbound p' hp'' q hq
        · refine List.Pairwise.cons ?_ hpair
          intro b hb
          exact hdom b (hsub b (List.mem_append_left _ hb))

/-- The extraction loop fails whenever more extractions are requested
than entries exist. -/
theorem topNGo_short (N : ℕ) : ∀ (n : ℕ) (d : List (String × Summary)),
    d.length < n → ∃ e, topNGo N n d = .error e := by
  intro n
  induction n with
  | zero =>
    intro d h
    omega
  | succ n ih =>
    intro d h
    rcases hmx : maxTimePair d with _ | p
    · exact ⟨_, topNGo_succ_none N n d hmx⟩
    · rw [topNGo_succ_some N n d p hmx]
      split_ifs with hmod
      · exact ⟨_, rfl⟩
      · have hpd : p ∈ d := (maxTimePair_spec d p hmx).1
        have hlen : (sdictDel d p.1).length + 1 = d.length := sdictDel_length_of_mem d p hpd
        obtain ⟨e, he⟩ := ih (sdictDel d p.1) (by omega)
        rw [he]
        exact ⟨e, rfl⟩

/-! ## Transport of the summary correspondence to sums -/

theorem samples_agg (u : String) (a : List ℚ) : samples (PyVal.agg u a) = a := rfl

theorem forall2_exists_left {α β : Type} {R : α → β → Prop} :
    ∀ {l1 : List α} {l2 : List β}, List.Forall₂ R l1 l2 → ∀ b ∈ l2, ∃ a ∈ l1, R a b := by
  intro l1 l2 h
  induction h with
  | nil => intro b hb; cases hb
  | cons hrel _ ih =>
    intro b hb
    rcases List.mem_cons.mp hb with rfl | hb'
    · exact ⟨_, List.mem_cons_self _ _, hrel⟩
    · obtain ⟨a, ha, har⟩ := ih b hb'
      exact ⟨a, List.mem_cons_of_mem _ ha, har⟩

theorem forall2_sum_counts (ps : PStats) {items : List (String × PyVal)}
    {l : List (String × Summary)} (h : List.Forall₂ (SummRel ps) items l) :
    sumCounts l = sumLens items := by
  induction h with
  | nil => rfl
  | @cons it out its outs hrel hrest ih =>
    obtain ⟨hk, url, arr, hagg, hone⟩ := hrel
    have hcount := (summarizeOne_ok _ _ _ _ _ hone).2.2.2.2.1
    simp only [sumCounts, sumLens, List.map_cons, List.sum_cons] at *
    rw [hcount, hagg, samples_agg]
    omega

theorem forall2_sum_times (ps : PStats) {items : List (String × PyVal)}
    {l : List (String × Summary)} (h : List.Forall₂ (SummRel ps) items l) :
    |sumTimeSums l - sumTimes items| ≤ (l.length : ℚ) * (1/2000) := by
  induction h with
  | nil => simp [sumTimeSums, sumTimes]
  | @cons it out its outs hrel hrest ih =>
    obtain ⟨hk, url, arr, hagg, hone⟩ := hrel
    have hts := (summarizeOne_ok _ _ _ _ _ hone).2.2.2.2.2.2.1
    have habs : |out.2.time_sum - (samples it.2).sum| ≤ 1/2000 := by
      rw [hts, hagg]
      simp only [samples]
      exact round3_abs_sub_le arr.sum
    have heq : sumTimeSums (out :: outs) - sumTimes (it :: its)
        = (out.2.time_sum - (samples it.2).sum) + (sumTimeSums outs - sumTimes its) := by
      simp only [sumTimeSums, sumTimes, List.map_cons, List.sum_cons]
      ring
    rw [heq]
    calc |(out.2.time_sum - (samples it.2).sum) + (sumTimeSums outs - sumTimes its)|
        ≤ |out.2.time_sum - (samples it.2).sum| + |sumTimeSums outs - sumTimes its| := abs_add _ _
      _ ≤ 1/2000 + (outs.length : ℚ) * (1/2000) := by linarith
      _ = (((out :: outs).length : ℕ) : ℚ) * (1/2000) := by
          simp only [List.length_cons]
          push_cast
          ring

theorem sumLens_mem_le (items : List (String × PyVal)) (kv : String × PyVal)
    (h : kv ∈ items) : (samples kv.2).length ≤ sumLens items := by
  induction items with
  | nil => cases h
  | cons a t ih =>
    rcases List.mem_cons.mp h with rfl | h'
    · simp only [sumLens, List.map_cons, List.sum_cons]
      omega
    · have := ih h'
      simp only [sumLens, List.map_cons, List.sum_cons] at *
      omega

theorem sum_natCast_counts (l : List (String × Summary)) :
    (l.map (fun kv => (kv.2.count : ℚ))).sum = ((sumCounts l : ℕ) : ℚ) := by
  induction l with
  | nil => simp [sumCounts]
  | cons a t ih =>
    simp only [sumCounts, List.map_cons, List.sum_cons] at *
    rw [ih]
    push_cast
    ring

theorem sum_map_mul_div (l : List (String × Summary))
    (F : (String × Summary) → ℚ) (T : ℚ) :
    (l.map (fun kv => F kv * 100 / T)).sum = (l.map F).sum * 100 / T := by
  induction l with
  | nil => simp
  | cons a t ih =>
    simp only [List.map_cons, List.sum_cons]
    rw [ih]
    ring

/-! ## Claims -/

/-- C2: after the full sequence is consumed the aggregator computes
failed = total - processed and raises the parse-quality error exactly
when failed exceeds total times max_error_percent over 100; when the
gate passes it returns the completed aggregate map. -/
theorem parse_quality_gate (p : ℚ) (lines : List (Option ParsedRec))
    (hfl : ∀ r ∈ lines.filterMap id, (pyFloat r.request_time).isSome) :
    (parse_logfile p lines = .error tooManyMsg ↔
      ((lines.length - countSome lines : ℕ) : ℚ) > (lines.length : ℚ) * (p / 100)) ∧
    (¬ ((lines.length - countSome lines : ℕ) : ℚ) > (lines.length : ℚ) * (p / 100) →
      ∃ d, parse_logfile p lines = .ok d) := by
  have h := parseAux_gate (lines.filterMap id) p lines.length (countSome lines) ⟨[], 0, 0⟩ hfl
  have heq : (lines.length : ℚ) / 100 * p = (lines.length : ℚ) * (p / 100) := by ring
  rw [heq] at h
  exact h

/-- C2 witness: with total 100, processed 80 and threshold 5 the run
raises; with processed 97 it completes. -/
theorem parse_quality_gate_witness :
    parse_logfile 5 c2LinesBad = .error tooManyMsg ∧
    ∃ d, parse_logfile 5 c2LinesGood = .ok d := by
  constructor
  · exact (parse_quality_gate 5 c2LinesBad (by with_unfolding_all decide)).1.mpr
      (by with_unfolding_all decide)
  · exact (parse_quality_gate 5 c2LinesGood (by with_unfolding_all decide)).2
      (by with_unfolding_all decide)

/-- C3: for every aggregate with nonempty samples the summarizer
produces count, count-share, time-sum, time-share, average, unrounded
maximum and median exactly by the spec formulas, with the median of the
ascending-sorted samples; the median of the two example lists is 0.25
and 0.2. -/
theorem summarizer_fields_spec :
    (∀ (total : ℕ) (art : ℚ) (url : String) (arr : List ℚ) (s : Summary),
      summarizeOne total art url arr = .ok s →
      s.count = arr.length ∧
      s.count_perc = round3 ((arr.length : ℚ) * 100 / (total : ℚ)) ∧
      s.time_sum = round3 arr.sum ∧
      s.time_perc = round3 (s.time_sum * 100 / art) ∧
      s.time_avg = round3 (arr.sum / (arr.length : ℚ)) ∧
      (s.time_max ∈ arr ∧ ∀ x ∈ arr, x ≤ s.time_max) ∧
      s.time_med = round3 (medianSpec arr)) ∧
    medianSpec [1/10, 2/10, 3/10, 4/10] = 1/4 ∧
    medianSpec [1/10, 2/10, 3/10] = 1/5 := by
  refine ⟨?_, by with_unfolding_all rfl, by with_unfolding_all rfl⟩
  intro total art url arr s h
  obtain ⟨_, _, _, _, h5, h6, h7, h8, h9, h10, h11⟩ := summarizeOne_ok total art url arr s h
  exact ⟨h5, h6, h7, h8, h9, h10, h11⟩

/-- C3 witness: the summary of samples 0.1, 0.2, 0.3, 0.4 under total 4
and total time 1, with median 0.25. -/
theorem summarizer_fields_witness :
    summarizeOne 4 1 "a" [1/10, 2/10, 3/10, 4/10] =
      .ok ⟨"a", 4, 100, 1, 100, 1/4, 2/5, 1/4⟩ ∧
    (⟨"a", 4, 100, 1, 100, 1/4, 2/5, 1/4⟩ : Summary).time_med
      = round3 (medianSpec [1/10, 2/10, 3/10, 4/10]) := by
  have hs : summarizeOne 4 1 "a" [1/10, 2/10, 3/10, 4/10] =
      .ok ⟨"a", 4, 100, 1, 100, 1/4, 2/5, 1/4⟩ := by with_unfolding_all rfl
  exact ⟨hs, (summarizer_fields_spec.1 4 1 "a" _ _ hs).2.2.2.2.2.2⟩

/-- C4: with all_req_time equal to zero the summarizer does not define
time-share as zero; the time-share division raises a zero-division
error instead (the code contradicts the spec's mandated fallback). -/
theorem time_share_zero_art_raises (total : ℕ) (url : String) (arr : List ℚ)
    (h : (total : ℚ) ≠ 0) :
    summarizeOne total 0 url arr = .error divMsg := by
  unfold summarizeOne
  rw [if_neg h, if_pos rfl]

/-- C4 witness: one URL with the single sample 0.0 under total 1. -/
theorem time_share_zero_art_witness :
    summarizeOne 1 0 "a" [0] = .error divMsg :=
  time_share_zero_art_raises 1 "a" [0] (by norm_num)

/-- C7 counterexample: the grammar accepts a line whose captured
request-time token is a dash, and float() rejects that token, so the
captured request_time does not always parse as a float. -/
theorem dash_request_time_not_float :
    parse_line dashTimeLine = some ⟨"b", "-"⟩ ∧ pyFloat "-" = none := by
  constructor
  · decide
  · rfl

/-- C7 amended: for every matching line parse_line returns exactly
capture groups 5 and 13 as url and request_time, for every other line
the no-match indicator, and it never raises; on a well-formed line the
trailing token does parse as a nonnegative float, but the grammar does
not guarantee this in general because the dot of the final group is an
unescaped wildcard. -/
theorem parse_line_spec :
    (∀ line : String,
      (reMatch nginxPat line.data = none → parse_line line = none) ∧
      (∀ caps, reMatch nginxPat line.data = some caps →
        parse_line line = some ⟨String.mk (getGroup caps 5), String.mk (getGroup caps 13)⟩)) ∧
    parse_line goodLine = some ⟨"/a", "0.100"⟩ ∧
    pyFloat "0.100" = some (1/10) := by
  refine ⟨?_, by decide, by with_unfolding_all rfl⟩
  intro line
  constructor
  · intro h
    unfold parse_line
    rw [h]
  · intro caps h
    unfold parse_line
    rw [h]

/-- C7 witness: a line that does not match is reported as no-match. -/
theorem parse_line_spec_witness : parse_line "x" = none :=
  (parse_line_spec.1 "x").1 (by decide)

/-- C9: for a nonempty aggregate map with recorded unique-URL count
between 1 and 5 (and nonzero division inputs for the first row), the
summarization loop raises a division-by-zero error from the progress
modulo expression, so no report is produced. -/
theorem progress_modulo_div_zero (ps : PStats) (k url : String) (arr : List ℚ)
    (rest : List (String × PyVal))
    (h1 : (ps.total : ℚ) ≠ 0) (h2 : ps.all_req_time ≠ 0) (h3 : arr ≠ [])
    (hu1 : 1 ≤ ps.uniq_urls_count) (hu5 : ps.uniq_urls_count ≤ 5) :
    summarizeAll ps ((k, PyVal.agg url arr) :: rest) = .error modMsg :=
  summarizeAllGo_mod_error ps k url arr rest 0 h1 h2 h3
    (pyRound_div10_eq_zero ps.uniq_urls_count hu1 hu5)

/-- C9 witness: two URLs, hence a unique-URL count of 2 and a zero
progress divisor. -/
theorem progress_modulo_div_zero_witness :
    summarizeAll ⟨2, 2, 2, 2⟩ [("u1", PyVal.agg "u1" [1]), ("u2", PyVal.agg "u2" [1])]
      = .error modMsg :=
  progress_modulo_div_zero ⟨2, 2, 2, 2⟩ "u1" "u1" [1] [("u2", PyVal.agg "u2" [1])]
    (by norm_num) (by norm_num) (by simp) (by norm_num) (by norm_num)

/-- C10: a parsed line whose URL is literally "parsing_stats" has its
aggregate overwritten by the terminal stats record stored under the
same key: after the run the key holds the sentinel, and the URL appears
in no summary and in no top-N output. -/
theorem parsing_stats_url_clobbered : clobberCheck = true := by
  with_unfolding_all rfl

/-- C1 counterexample: with one summarized entry and a requested size
of 10 the selection does not return the single entry; it raises from
max() on the emptied dict, so the output length is not min(N, M). -/
theorem topn_fewer_entries_raises :
    topNSelect 10 [("a", mkSummary "a" 10)] =
      .error "ValueError: max() arg is an empty sequence" := by
  with_unfolding_all rfl

/-- C1 amended: when the selection completes it returns exactly N
entries drawn from the input without duplication, in non-increasing
time_sum order (strictly descending when all time_sum values are
distinct), each dominating everything left unselected; when fewer than
N entries exist it raises instead of returning all of them. -/
theorem topn_selection_spec :
    (∀ (N : ℕ) (d sel rest : List (String × Summary)),
      (d.map Prod.fst).Nodup →
      topNSelect N d = .ok (sel, rest) →
      sel.length = N ∧
      (∀ p ∈ sel, p ∈ d) ∧
      (sel.map Prod.fst).Nodup ∧
      List.Pairwise (fun a b => b.2.time_sum ≤ a.2.time_sum) sel ∧
      (∀ p ∈ sel, ∀ q ∈ rest, q.2.time_sum ≤ p.2.time_sum) ∧
      ((d.map (fun kv => kv.2.time_sum)).Nodup →
        List.Pairwise (fun a b => b.2.time_sum < a.2.time_sum) sel)) ∧
    (∀ (N : ℕ) (d : List (String × Summary)), d.length < N →
      ∃ e, topNSelect N d = .error e) := by
  constructor
  · intro N d sel rest hnd h
    obtain ⟨hlen, hperm, hbound, hpair⟩ := topNGo_ok N N d sel rest h hnd
    have hsubd : ∀ p ∈ sel, p ∈ d := fun p hp =>
      hperm.mem_iff.mp (List.mem_append_left _ hp)
    have hndsel : (sel.map Prod.fst).Nodup := by
      have hmapperm := hperm.map Prod.fst
      have hall : ((sel ++ rest).map Prod.fst).Nodup := hmapperm.nodup_iff.mpr hnd
      rw [List.map_append] at hall
      exact hall.of_append_left
    refine ⟨hlen, hsubd, hndsel, hpair, hbound, ?_⟩
    intro hts
    have hmapperm := hperm.map (fun kv : String × Summary => kv.2.time_sum)
    have hall : ((sel ++ rest).map (fun kv => kv.2.time_sum)).Nodup :=
      hmapperm.nodup_iff.mpr hts
    rw [List.map_append] at hall
    have hselts : (sel.map (fun kv => kv.2.time_sum)).Nodup := hall.of_append_left
    have hne : List.Pairwise (fun a b : String × Summary =>
        a.2.time_sum ≠ b.2.time_sum) sel := List.pairwise_map.mp hselts
    exact (hpair.and hne).imp (fun hab => lt_of_le_of_ne hab.1 (Ne.symm hab.2))
  · intro N d h
    exact topNGo_short N N d h

/-- C1 witness: six distinct entries with distinct time sums selected
with N = 6 come back whole, strictly descending; requesting 10 from the
same six raises. -/
theorem topn_selection_witness :
    topNSelect 6 sixEntries = .ok (sixEntries, []) ∧
    List.Pairwise (fun a b => b.2.time_sum < a.2.time_sum) sixEntries ∧
    (∃ e, topNSelect 10 sixEntries = .error e) := by
  have hok : topNSelect 6 sixEntries = .ok (sixEntries, []) := by with_unfolding_all rfl
  have hnd : (sixEntries.map Prod.fst).Nodup := by decide
  have h := topn_selection_spec.1 6 sixEntries sixEntries [] hnd hok
  exact ⟨hok, h.2.2.2.2.2 (by with_unfolding_all decide),
    topn_selection_spec.2 10 sixEntries (by decide)⟩

/-- C8 counterexample: selecting 10 of 10 entries leaves the input dict
empty, so the input set is not preserved by selection. -/
theorem topn_consumes_input :
    (topNSelect 10 tenEntries).map Prod.snd = .ok [] ∧ tenEntries ≠ [] := by
  constructor
  · with_unfolding_all rfl
  · simp [tenEntries]

/-- C8 amended: the selection is destructive: on success the selected
entries plus the post-selection remainder form a permutation of the
input, the remainder is exactly N entries shorter, and for positive N
the input dict value is never preserved. -/
theorem topn_destructive (N : ℕ) (d sel rest : List (String × Summary))
    (hnd : (d.map Prod.fst).Nodup) (h : topNSelect N d = .ok (sel, rest)) :
    List.Perm (sel ++ rest) d ∧ rest.length + N = d.length ∧ (0 < N → rest ≠ d) := by
  obtain ⟨hlen, hperm, _, _⟩ := topNGo_ok N N d sel rest h hnd
  have hlval := hperm.length_eq
  rw [List.length_append, hlen] at hlval
  refine ⟨hperm, by omega, ?_⟩
  intro hN heq
  rw [heq] at hlval
  omega

/-- C8 witness: ten entries selected with N = 10 leave an empty dict,
distinct from the original. -/
theorem topn_destructive_witness :
    topNSelect 10 tenEntries = .ok (tenEntries, []) ∧
    ([] : List (String × Summary)) ≠ tenEntries := by
  have hok : topNSelect 10 tenEntries = .ok (tenEntries, []) := by with_unfolding_all rfl
  have h := topn_destructive 10 tenEntries tenEntries [] (by decide) hok
  exact ⟨hok, h.2.2 (by norm_num)⟩

/-- C5 counterexample: a file containing a line with the literal URL
"parsing_stats" is accepted and summarized, yet the summary counts do
not add up to processed (and the time sums miss the clobbered URL's
five seconds). -/
theorem count_sum_invariant_fails : sumInvariantCheck 5 clobberLines = false := by
  with_unfolding_all rfl

/-- C5 amended: for every accepted input none of whose parsed lines
uses the reserved URL "parsing_stats", the summary counts sum exactly
to processed and the summary time sums match all_req_time within 0.001
per entry. -/
theorem aggregate_sum_invariants (p : ℚ) (lines : List (Option ParsedRec))
    (d : Dict) (ps : PStats) (l : List (String × Summary))
    (h1 : parse_logfile p lines = .ok d)
    (h2 : ∀ r ∈ lines.filterMap id, r.url ≠ "parsing_stats")
    (h3 : getPStats d = some ps)
    (h4 : summarizeAll ps (dictDel d "parsing_stats") = .ok l) :
    sumCounts l = ps.processed ∧
    |sumTimeSums l - ps.all_req_time| ≤ (l.length : ℚ) * (1/1000) := by
  have h1' : parseLogfileAux p (lines.filterMap id) lines.length (countSome lines)
      ⟨[], 0, 0⟩ = .ok d := h1
  obtain ⟨u, a, hps, _, hexact, _⟩ := parseAux_ok_inv _ p _ _ _ d h1'
    (fun kv hkv => absurd hkv (List.not_mem_nil kv))
  obtain ⟨he1, he2⟩ := hexact h2 rfl
  dsimp only at he1 he2
  rw [h3] at hps
  have hpseq : ps = ⟨lines.length, countSome lines, u, a⟩ := Option.some.inj hps
  have hF2 := summarizeAll_ok ps _ l h4
  have hlens0 : sumLens ([] : Dict) = 0 := rfl
  have htimes0 : sumTimes ([] : Dict) = 0 := rfl
  constructor
  · rw [forall2_sum_counts ps hF2, he1, hlens0, hpseq]
    simp [countSome]
  · have hbound := forall2_sum_times ps hF2
    have hta : sumTimes (dictDel d "parsing_stats") = a := by
      rw [he2, htimes0]
      ring
    have hart : ps.all_req_time = a := by rw [hpseq]
    rw [hart, ← hta]
    have hlen0 : (0 : ℚ) ≤ (l.length : ℚ) := Nat.cast_nonneg _
    calc |sumTimeSums l - sumTimes (dictDel d "parsing_stats")|
        ≤ (l.length : ℚ) * (1/2000) := hbound
      _ ≤ (l.length : ℚ) * (1/1000) := by linarith

/-- C5 witness: a clean six-line file where the counts sum to the six
processed lines and the time sums match the total time. -/
theorem aggregate_sum_invariants_witness :
    parse_logfile 5 cleanLines = .ok cleanDict ∧
    sumCounts cleanSummaries = cleanPS.processed ∧
    |sumTimeSums cleanSummaries - cleanPS.all_req_time|
      ≤ (cleanSummaries.length : ℚ) * (1/1000) := by
  have h1 : parse_logfile 5 cleanLines = .ok cleanDict := by with_unfolding_all rfl
  have h3 : getPStats cleanDict = some cleanPS := by with_unfolding_all rfl
  have h4 : summarizeAll cleanPS (dictDel cleanDict "parsing_stats") = .ok cleanSummaries := by
    with_unfolding_all rfl
  have h := aggregate_sum_invariants 5 cleanLines cleanDict cleanPS cleanSummaries h1
    (by with_unfolding_all decide) h3 h4
  exact ⟨h1, h.1, h.2⟩

/-- C6 counterexample: on an accepted file with total request time
0.0006 one time-share is 166.667, outside the claimed range 0 to 100
(and the shares cannot sum to roughly 100). -/
theorem time_share_exceeds_hundred : shareBoundsCheck 5 tinyTimeLines = false := by
  with_unfolding_all rfl

/-- C6 amended: count-shares always lie within 0 and 100 and time-shares
are nonnegative for nonnegative inputs, but time-shares may exceed 100;
the count-shares sum to 100 times processed over total within 0.001 per
entry, and the time-shares sum to 100 times the rounded time-sum total
over all_req_time within 0.001 per entry (approximately 100 only when
nothing was lost to failed lines or rounding amplification). -/
theorem share_bounds_amended (p : ℚ) (lines : List (Option ParsedRec))
    (d : Dict) (ps : PStats) (l : List (String × Summary))
    (h1 : parse_logfile p lines = .ok d)
    (h3 : getPStats d = some ps)
    (h4 : summarizeAll ps (dictDel d "parsing_stats") = .ok l)
    (hnn : ∀ r ∈ lines.filterMap id, 0 ≤ (pyFloat r.request_time).getD 0) :
    (∀ kv ∈ l, 0 ≤ kv.2.count_perc ∧ kv.2.count_perc ≤ 100 ∧ 0 ≤ kv.2.time_perc) ∧
    |sumCountPerc l - (sumCounts l : ℚ) * 100 / (ps.total : ℚ)|
      ≤ (l.length : ℚ) * (1/1000) ∧
    |sumTimePerc l - sumTimeSums l * 100 / ps.all_req_time|
      ≤ (l.length : ℚ) * (1/1000) := by
  have h1' : parseLogfileAux p (lines.filterMap id) lines.length (countSome lines)
      ⟨[], 0, 0⟩ = .ok d := h1
  obtain ⟨u, a, hps, hle, _, hnninv⟩ := parseAux_ok_inv _ p _ _ _ d h1'
    (fun kv hkv => absurd hkv (List.not_mem_nil kv))
  dsimp only at hle
  have hnn' : ∀ r ∈ lines.filterMap id, ∀ q, pyFloat r.request_time = some q → 0 ≤ q := by
    intro r hr q hq
    have h := hnn r hr
    rw [hq] at h
    simpa using h
  obtain ⟨hnnitems, hart0⟩ := hnninv hnn'
    (fun kv hkv => absurd hkv (List.not_mem_nil kv))
  dsimp only at hart0
  rw [h3] at hps
  have hpseq : ps = ⟨lines.length, countSome lines, u, a⟩ := Option.some.inj hps
  have hF2 := summarizeAll_ok ps _ l h4
  have hrow : ∀ kv ∈ l, ∃ it ∈ dictDel d "parsing_stats", SummRel ps it kv :=
    fun kv hkv => forall2_exists_left hF2 kv hkv
  have hsl : sumLens (dictDel d "parsing_stats") ≤ countSome lines := by
    have hlens0 : sumLens ([] : Dict) = 0 := rfl
    rw [hlens0] at hle
    simpa [countSome] using hle
  have hcount_tot : countSome lines ≤ lines.length := List.length_filterMap_le _ _
  have htot_eq : ps.total = lines.length := by rw [hpseq]
  have hart_eq : ps.all_req_time = a := by rw [hpseq]
  have hentry : ∀ kv ∈ l, 0 ≤ kv.2.count_perc ∧ kv.2.count_perc ≤ 100 ∧
      0 ≤ kv.2.time_perc := by
    intro kv hkv
    obtain ⟨it, hit, hk, url, arr, hagg, hone⟩ := hrow kv hkv
    obtain ⟨htot, hart, hne, _, hcnt, hcp, hts, htp, _, _, _⟩ :=
      summarizeOne_ok _ _ _ _ _ hone
    have htotpos : 0 < (ps.total : ℚ) :=
      lt_of_le_of_ne (Nat.cast_nonneg _) (Ne.symm htot)
    have hcle : arr.length ≤ ps.total := by
      have ha1 : (samples it.2).length ≤ sumLens (dictDel d "parsing_stats") :=
        sumLens_mem_le _ it hit
      rw [hagg, samples_agg] at ha1
      omega
    have hcleq : ((arr.length : ℕ) : ℚ) ≤ (ps.total : ℚ) := by exact_mod_cast hcle
    refine ⟨?_, ?_, ?_⟩
    · rw [hcp]
      exact round3_nonneg _ (by positivity)
    · rw [hcp]
      apply round3_le_hundred
      rw [div_le_iff₀ htotpos]
      linarith
    · rw [htp]
      apply round3_nonneg
      have hsum0 : 0 ≤ arr.sum := by
        apply List.sum_nonneg
        intro x hx
        apply hnnitems it hit x
        rw [hagg, samples_agg]
        exact hx
      have hts0 : 0 ≤ kv.2.time_sum := by
        rw [hts]
        exact round3_nonneg _ hsum0
      have hartpos : 0 < ps.all_req_time := by
        have h0 : 0 ≤ ps.all_req_time := by
          rw [hart_eq]
          exact hart0
        exact lt_of_le_of_ne h0 (Ne.symm hart)
      positivity
  refine ⟨hentry, ?_, ?_⟩
  · have hpoint : ∀ kv ∈ l, kv.2.count_perc
        = round3 ((kv.2.count : ℚ) * 100 / (ps.total : ℚ)) := by
      intro kv hkv
      obtain ⟨it, hit, hk, url, arr, hagg, hone⟩ := hrow kv hkv
      obtain ⟨_, _, _, _, hcnt, hcp, _⟩ := summarizeOne_ok _ _ _ _ _ hone
      rw [hcp, hcnt]
    have hb := sum_round3_pointwise l (fun kv => kv.2.count_perc)
      (fun kv => (kv.2.count : ℚ) * 100 / (ps.total : ℚ)) hpoint
    have hGsum : (l.map (fun kv => (kv.2.count : ℚ) * 100 / (ps.total : ℚ))).sum
        = (sumCounts l : ℚ) * 100 / (ps.total : ℚ) := by
      rw [sum_map_mul_div l (fun kv => (kv.2.count : ℚ)) ((ps.total : ℚ)),
        sum_natCast_counts]
    rw [hGsum] at hb
    have hlen0 : (0 : ℚ) ≤ (l.length : ℚ) := Nat.cast_nonneg _
    calc |sumCountPerc l - (sumCounts l : ℚ) * 100 / (ps.total : ℚ)|
        ≤ (l.length : ℚ) * (1/2000) := hb
      _ ≤ (l.length : ℚ) * (1/1000) := by linarith
  · have hpoint : ∀ kv ∈ l, kv.2.time_perc
        = round3 (kv.2.time_sum * 100 / ps.all_req_time) := by
      intro kv hkv
      obtain ⟨it, hit, hk, url, arr, hagg, hone⟩ := hrow kv hkv
      exact (summarizeOne_ok _ _ _ _ _ hone).2.2.2.2.2.2.2.1
    have hc := sum_round3_pointwise l (fun kv => kv.2.time_perc)
      (fun kv => kv.2.time_sum * 100 / ps.all_req_time) hpoint
    have hGsum : (l.map (fun kv => kv.2.time_sum * 100 / ps.all_req_time)).sum
        = sumTimeSums l * 100 / ps.all_req_time :=
      sum_map_mul_div l (fun kv => kv.2.time_sum) ps.all_req_time
    rw [hGsum] at hc
    have hlen0 : (0 : ℚ) ≤ (l.length : ℚ) := Nat.cast_nonneg _
    calc |sumTimePerc l - sumTimeSums l * 100 / ps.all_req_time|
        ≤ (l.length : ℚ) * (1/2000) := hc
      _ ≤ (l.length : ℚ) * (1/1000) := by linarith

/-- C6 witness: on the clean six-line file the first summary row has
its count-share within 0 and 100 and a nonnegative time-share. -/
theorem share_bounds_witness :
    0 ≤ (⟨"u1", 1, 16667/1000, 1/2, 2381/500, 1/2, 1/2, 1/2⟩ : Summary).count_perc ∧
    (⟨"u1", 1, 16667/1000, 1/2, 2381/500, 1/2, 1/2, 1/2⟩ : Summary).count_perc ≤ 100 ∧
    0 ≤ (⟨"u1", 1, 16667/1000, 1/2, 2381/500, 1/2, 1/2, 1/2⟩ : Summary).time_perc := by
  have h1 : parse_logfile 5 cleanLines = .ok cleanDict := by with_unfolding_all rfl
  have h3 : getPStats cleanDict = some cleanPS := by with_unfolding_all rfl
  have h4 : summarizeAll cleanPS (dictDel cleanDict "parsing_stats") = .ok cleanSummaries := by
    with_unfolding_all rfl
  exact (share_bounds_amended 5 cleanLines cleanDict cleanPS cleanSummaries h1 h3 h4
    (by with_unfolding_all decide)).1
    ("u1", ⟨"u1", 1, 16667/1000, 1/2, 2381/500, 1/2, 1/2, 1/2⟩)
    (by unfold cleanSummaries; exact List.mem_cons_self _ _)

end LogAnalyzer

